import Mathlib

/-!
Verification of the cache layer of the Seller repository.

The embedded code is `src/lib/cache/memory.ts` (class `MemoryCacheService`,
an LRU cache with TTL realised as a doubly-linked list plus a `Map`) and
`src/lib/cache/index.ts` (class `UnifiedCacheService`, a facade that prefers
an optional remote backend and falls back to the in-process cache, plus
`withCache` and `invalidateCache`).

Modelling choices, each mirroring the TypeScript source:
* The doubly-linked list with head/tail sentinels stores no data beyond the
  order of the real nodes, so the list is embedded as `order : List String`,
  the keys from the node adjacent to the head sentinel (most recently used)
  to the node adjacent to the tail sentinel (least recently used).
  `removeNode` on a node holding key `k` unlinks exactly that node, i.e.
  `order.erase k`; `addToHead` is `k :: order`; `removeTail` reads
  `tail.prev` (`order.getLast?`) and unlinks it (`order.dropLast`).
* The JavaScript `Map` is embedded as an association list in insertion
  order: `Map.set` of a fresh key appends, `Map.set`/field mutation of a
  present key updates in place, `Map.delete` removes the entry, `Map.size`
  is the length.
* `Date.now()` is an explicit `now : Nat` argument (milliseconds); a node
  built with ttl seconds at time `now` carries `expiry = now + ttl * 1000`,
  and `isExpired` is `Date.now() > expiry`.
* Values are a type parameter `V`.  A JavaScript `null` payload is
  `Option W` with `none` for `null`; the `T | null` return type of `get`
  then flattens through `Option.join`.
-/

set_option maxHeartbeats 1000000

namespace Seller

/-- Payload of an `LRUNode` in `memory.ts`: the stored value and the
absolute expiry timestamp `Date.now() + ttl * 1000` (milliseconds). -/
structure LRUNode (V : Type) where
  value : V
  expiry : Nat
  deriving Repr, DecidableEq

/-- `LRUNode.isExpired`: `Date.now() > this.expiry`. -/
def LRUNode.isExpired (now : Nat) (n : LRUNode V) : Bool :=
  decide (n.expiry < now)

/-- State of `MemoryCacheService`: the configured capacity, the recency
list (`order`, most recently used first — the keys of the real nodes read
from the head sentinel towards the tail sentinel) and the lookup `Map`
(`table`, an association list in `Map` insertion order). -/
structure CacheState (V : Type) where
  capacity : Nat
  order : List String
  table : List (String × LRUNode V)
  deriving Repr, DecidableEq

/-- `Map.delete k` on the association-list embedding of the `Map`. -/
def mapErase (l : List (String × LRUNode V)) (k : String) : List (String × LRUNode V) :=
  l.eraseP (fun p => p.1 == k)

/-- The freshly constructed `MemoryCacheService` with the given capacity:
empty `Map`, head and tail sentinels linked to each other. -/
def emptyCache (V : Type) (capacity : Nat) : CacheState V :=
  { capacity := capacity, order := [], table := [] }

/-- `MemoryCacheService.get`: on a hit the node is tested for expiry; an
expired node is unlinked (`removeNode`) and discarded from the `Map` and
the call reports a miss; a live node is moved to the head of the recency
list (`moveToHead = removeNode; addToHead`) and its value returned. -/
def cacheGet (now : Nat) (s : CacheState V) (k : String) : Option V × CacheState V :=
  match s.table.lookup k with
  | none => (none, s)
  | some node =>
    if node.isExpired now then
      (none, { s with order := s.order.erase k, table := mapErase s.table k })
    else
      (some node.value, { s with order := k :: s.order.erase k })

/-- `MemoryCacheService.set`: an existing node has its value and expiry
replaced in place and is moved to the head; otherwise, if
`cache.size >= capacity`, `removeTail` unlinks the node adjacent to the
tail sentinel and its key is deleted from the `Map`, after which the new
node is stored in the `Map` and linked at the head. -/
def cacheSet (now : Nat) (s : CacheState V) (k : String) (v : V) (ttl : Nat) : CacheState V :=
  match s.table.lookup k with
  | some _ =>
    { s with
      table := s.table.map (fun p => if p.1 = k then (k, ⟨v, now + ttl * 1000⟩) else p),
      order := k :: s.order.erase k }
  | none =>
    let s1 :=
      if s.capacity ≤ s.table.length then
        match s.order.getLast? with
        | some t => { s with order := s.order.dropLast, table := mapErase s.table t }
        | none => s
      else s
    { s1 with
      table := s1.table ++ [(k, ⟨v, now + ttl * 1000⟩)],
      order := k :: s1.order }

/-- `MemoryCacheService.delete`: unlink and remove a present entry and
report `true`; report `false` on an absent key. -/
def cacheDelete (s : CacheState V) (k : String) : Bool × CacheState V :=
  match s.table.lookup k with
  | some _ => (true, { s with order := s.order.erase k, table := mapErase s.table k })
  | none => (false, s)

/-- `MemoryCacheService.clear`: empty the `Map` and relink the sentinels
to each other. -/
def cacheClear (s : CacheState V) : CacheState V :=
  { s with order := [], table := [] }

/-- Body of the `forEach` in `MemoryCacheService.cleanup`: re-fetch the
key and, when still present, unlink the node and delete the entry. -/
def cleanupStep (st : CacheState V) (k : String) : CacheState V :=
  match st.table.lookup k with
  | some _ => { st with order := st.order.erase k, table := mapErase st.table k }
  | none => st

/-- `MemoryCacheService.cleanup`: collect the keys of the expired entries,
then remove each of them. -/
def cacheCleanup (now : Nat) (s : CacheState V) : CacheState V :=
  let expiredKeys := (s.table.filter (fun p => p.2.isExpired now)).map Prod.fst
  expiredKeys.foldl cleanupStep s

/-- The `size` field of `MemoryCacheService.getStats()`: `this.cache.size`. -/
def statsSize (s : CacheState V) : Nat := s.table.length

/-! ### Association-list lemmas for the `Map` embedding -/

theorem lookup_cons_self {β : Type} {a : String} {b : β} {tl : List (String × β)} :
    ((a, b) :: tl).lookup a = some b := by
  simp [List.lookup_cons]

theorem lookup_cons_ne {β : Type} {k a : String} {b : β} {tl : List (String × β)}
    (h : k ≠ a) : ((a, b) :: tl).lookup k = tl.lookup k := by
  rw [List.lookup_cons, show (k == a) = false from beq_eq_false_iff_ne.mpr h]

theorem lookup_eq_none_iff {β : Type} {l : List (String × β)} {k : String} :
    l.lookup k = none ↔ k ∉ l.map Prod.fst := by
  induction l with
  | nil => simp
  | cons p tl ih =>
    obtain ⟨a, b⟩ := p
    by_cases h : k = a
    · subst h
      simp [lookup_cons_self]
    · simp [lookup_cons_ne h, ih, h]

theorem mem_keys_of_lookup {β : Type} {l : List (String × β)} {k : String} {b : β}
    (h : l.lookup k = some b) : k ∈ l.map Prod.fst := by
  by_contra hk
  rw [lookup_eq_none_iff.mpr hk] at h
  exact Option.noConfusion h

theorem lookup_of_mem_nodup {β : Type} {l : List (String × β)} {k : String} {b : β}
    (hnd : (l.map Prod.fst).Nodup) (h : (k, b) ∈ l) : l.lookup k = some b := by
  induction l with
  | nil => exact absurd h (List.not_mem_nil _)
  | cons p tl ih =>
    obtain ⟨a, c⟩ := p
    rcases List.mem_cons.mp h with heq | hmem
    · have h1 : k = a := congrArg Prod.fst heq
      have h2 : b = c := congrArg Prod.snd heq
      subst h1; subst h2
      exact lookup_cons_self
    · have hka : k ≠ a := by
        rintro rfl
        exact (List.nodup_cons.mp hnd).1 (List.mem_map.mpr ⟨(k, b), hmem, rfl⟩)
      rw [lookup_cons_ne hka]
      exact ih (List.nodup_cons.mp hnd).2 hmem

theorem keys_mapErase {l : List (String × LRUNode V)} {k : String} :
    (mapErase l k).map Prod.fst = (l.map Prod.fst).erase k := by
  induction l with
  | nil => rfl
  | cons p tl ih =>
    obtain ⟨a, b⟩ := p
    by_cases h : a = k
    · subst h
      rw [mapErase, List.eraseP_cons_of_pos (by simp), List.map_cons, List.erase_cons_head]
    · rw [mapErase, List.eraseP_cons_of_neg (by simp [h]), List.map_cons, List.map_cons,
        List.erase_cons_tail (by simp [h]), ← ih]
      rfl

theorem length_mapErase_of_mem {l : List (String × LRUNode V)} {k : String}
    (h : k ∈ l.map Prod.fst) : (mapErase l k).length = l.length - 1 := by
  obtain ⟨p, hp, hk⟩ := List.mem_map.mp h
  exact List.length_eraseP_of_mem hp (by simp [hk])

theorem mapErase_of_not_mem {l : List (String × LRUNode V)} {k : String}
    (h : k ∉ l.map Prod.fst) : mapErase l k = l := by
  refine List.eraseP_of_forall_not fun p hp => ?_
  simp only [beq_iff_eq]
  rintro rfl
  exact h (List.mem_map.mpr ⟨p, hp, rfl⟩)

theorem mem_mapErase_ne {l : List (String × LRUNode V)} {k : String} {p : String × LRUNode V}
    (hnd : (l.map Prod.fst).Nodup) (h : p ∈ mapErase l k) : p ∈ l ∧ p.1 ≠ k := by
  refine ⟨List.mem_of_mem_eraseP h, fun hpk => ?_⟩
  have hm : p.1 ∈ (mapErase l k).map Prod.fst := List.mem_map.mpr ⟨p, h, rfl⟩
  rw [keys_mapErase, hpk] at hm
  exact ((hnd.mem_erase_iff.mp hm).1 rfl)

theorem keys_update {l : List (String × LRUNode V)} {k : String} {n : LRUNode V} :
    (l.map (fun p => if p.1 = k then (k, n) else p)).map Prod.fst = l.map Prod.fst := by
  rw [List.map_map]
  refine List.map_congr_left fun p _ => ?_
  by_cases h : p.1 = k <;> simp [h]

theorem lookup_update_self {l : List (String × LRUNode V)} {k : String} {n : LRUNode V} {old : LRUNode V}
    (h : l.lookup k = some old) :
    (l.map (fun p => if p.1 = k then (k, n) else p)).lookup k = some n := by
  induction l with
  | nil => exact absurd h Option.noConfusion
  | cons p tl ih =>
    obtain ⟨a, b⟩ := p
    by_cases hka : k = a
    · subst hka
      simp only [List.map_cons, if_pos rfl]
      exact lookup_cons_self
    · rw [lookup_cons_ne hka] at h
      simp only [List.map_cons, if_neg (Ne.symm hka)]
      rw [lookup_cons_ne hka]
      exact ih h

theorem lookup_append_right {β : Type} {l1 l2 : List (String × β)} {k : String}
    (h : k ∉ l1.map Prod.fst) : (l1 ++ l2).lookup k = l2.lookup k := by
  induction l1 with
  | nil => rfl
  | cons p tl ih =>
    obtain ⟨a, b⟩ := p
    simp only [List.map_cons, List.mem_cons, not_or] at h
    rw [List.cons_append, lookup_cons_ne h.1]
    exact ih h.2

/-! ### The linked-list/map agreement invariant -/

/-- Well-formedness of a `MemoryCacheService` state: the recency list is a
duplicate-free permutation of the keys of the `Map`.  This is the shape
the class maintains: every real node reachable from the head sentinel is
indexed by the `Map` exactly once and vice versa. -/
def WF (s : CacheState V) : Prop :=
  s.order.Perm (s.table.map Prod.fst) ∧ s.order.Nodup

theorem WF.keysNodup {s : CacheState V} (h : WF s) : (s.table.map Prod.fst).Nodup :=
  h.1.nodup h.2

theorem WF.mem_iff {s : CacheState V} (h : WF s) {k : String} :
    (k ∈ s.order ↔ k ∈ s.table.map Prod.fst) :=
  h.1.mem_iff

theorem WF_removeEntry {s : CacheState V} (h : WF s) (k : String) :
    WF { s with order := s.order.erase k, table := mapErase s.table k } := by
  by_cases hk : k ∈ s.table.map Prod.fst
  · refine ⟨?_, h.2.erase k⟩
    simp only [keys_mapErase]
    exact h.1.erase k
  · rw [show s.order.erase k = s.order from List.erase_of_not_mem (h.mem_iff.not.mpr hk),
      mapErase_of_not_mem hk]
    exact h

theorem WF_cacheGet {s : CacheState V} (h : WF s) (now : Nat) (k : String) :
    WF (cacheGet now s k).2 := by
  unfold cacheGet
  cases hl : s.table.lookup k with
  | none => exact h
  | some node =>
    have hk : k ∈ s.table.map Prod.fst := mem_keys_of_lookup hl
    by_cases he : node.isExpired now
    · simpa [he] using WF_removeEntry h k
    · simp only [he, Bool.false_eq_true, if_false]
      refine ⟨((List.perm_cons_erase (h.mem_iff.mpr hk)).symm).trans h.1,
        List.nodup_cons.mpr ⟨?_, h.2.erase k⟩⟩
      intro hmem
      exact ((h.2.mem_erase_iff.mp hmem).1 rfl)

theorem WF_cacheDelete {s : CacheState V} (h : WF s) (k : String) :
    WF (cacheDelete s k).2 := by
  unfold cacheDelete
  cases s.table.lookup k with
  | none => exact h
  | some node => exact WF_removeEntry h k

theorem WF_cacheClear (s : CacheState V) : WF (cacheClear s) :=
  ⟨List.Perm.refl _, List.nodup_nil⟩

theorem order_eq_dropLast_concat {s : CacheState V} (h : WF s) {t : String}
    (hLast : s.order.getLast? = some t) :
    s.order = s.order.dropLast ++ [t] ∧ t ∉ s.order.dropLast := by
  have hne : s.order ≠ [] := by
    intro hnil
    rw [hnil] at hLast
    exact Option.noConfusion hLast
  have hgl : s.order.getLast hne = t := by
    have := List.getLast?_eq_getLast s.order hne
    rw [hLast] at this
    exact (Option.some.injEq .. ▸ this).symm
  have heq : s.order.dropLast ++ [t] = s.order := by
    rw [← hgl]
    exact List.dropLast_append_getLast hne
  refine ⟨heq.symm, fun hmem => ?_⟩
  have hnd : (s.order.dropLast ++ [t]).Nodup := by rw [heq]; exact h.2
  exact (List.nodup_append.mp hnd).2.2 hmem (List.mem_singleton.mpr rfl)

theorem WF_cacheSet {s : CacheState V} (h : WF s) (now : Nat) (k : String) (v : V) (ttl : Nat) :
    WF (cacheSet now s k v ttl) := by
  unfold cacheSet
  cases hl : s.table.lookup k with
  | some node =>
    have hk : k ∈ s.table.map Prod.fst := mem_keys_of_lookup hl
    simp only
    constructor
    · rw [keys_update]
      exact ((List.perm_cons_erase (h.mem_iff.mpr hk)).symm).trans h.1
    · refine List.nodup_cons.mpr ⟨?_, h.2.erase k⟩
      intro hmem
      exact ((h.2.mem_erase_iff.mp hmem).1 rfl)
  | none =>
    have hk : k ∉ s.table.map Prod.fst := lookup_eq_none_iff.mp hl
    have hko : k ∉ s.order := h.mem_iff.not.mpr hk
    simp only
    split
    · cases hLast : s.order.getLast? with
      | none =>
        have hnil : s.order = [] := List.getLast?_eq_none_iff.mp hLast
        have htnil : s.table.map Prod.fst = [] := by
          have := h.1
          rw [hnil] at this
          exact (List.Perm.nil_eq this).symm
        simp only
        constructor
        · rw [List.map_append, htnil]
          simp [hnil]
        · refine List.nodup_cons.mpr ⟨?_, ?_⟩
          · rw [hnil]; exact List.not_mem_nil k
          · rw [hnil]; exact List.nodup_nil
      | some t =>
        obtain ⟨horder, htd⟩ := order_eq_dropLast_concat h hLast
        have htmem : t ∈ s.order := by
          rw [horder]
          exact List.mem_append_right _ (List.mem_singleton.mpr rfl)
        have htk : t ∈ s.table.map Prod.fst := h.mem_iff.mp htmem
        have herase : s.order.erase t = s.order.dropLast := by
          conv_lhs => rw [horder]
          rw [List.erase_append_right _ htd, List.erase_cons_head, List.append_nil]
        have hperm1 : s.order.dropLast.Perm ((s.table.map Prod.fst).erase t) := by
          rw [← herase]
          exact h.1.erase t
        simp only
        constructor
        · rw [List.map_append, keys_mapErase]
          refine List.Perm.trans ?_ (List.perm_append_singleton _ _).symm
          exact (hperm1.cons k).trans (List.Perm.refl _)
        · refine List.nodup_cons.mpr ⟨?_, ?_⟩
          · intro hmem
            exact hko (List.dropLast_sublist s.order |>.mem hmem)
          · exact (List.dropLast_sublist s.order).nodup h.2
    · constructor
      · rw [List.map_append]
        exact (h.1.cons k).trans (List.perm_append_singleton _ _).symm
      · exact List.nodup_cons.mpr ⟨hko, h.2⟩

theorem WF_cleanupStep {s : CacheState V} (h : WF s) (k : String) :
    WF (cleanupStep s k) := by
  unfold cleanupStep
  cases s.table.lookup k with
  | none => exact h
  | some node => exact WF_removeEntry h k

theorem WF_cacheCleanup {s : CacheState V} (h : WF s) (now : Nat) :
    WF (cacheCleanup now s) := by
  unfold cacheCleanup
  generalize (s.table.filter (fun p => p.2.isExpired now)).map Prod.fst = ks
  induction ks generalizing s with
  | nil => exact h
  | cons a tl ih => exact ih (WF_cleanupStep h a)

/-! ### Characterisation of a run of fresh `set` calls (for the capacity claim) -/

/-- One `set` call of a run, as a fold step over (key, value) pairs. -/
def setStep (now ttl : Nat) (s : CacheState V) (p : String × V) : CacheState V :=
  cacheSet now s p.1 p.2 ttl

/-- The `Map` entry `set` builds for a fresh key at time `now`. -/
def freshEntry (now ttl : Nat) (p : String × V) : String × LRUNode V :=
  (p.1, ⟨p.2, now + ttl * 1000⟩)

theorem keys_map_freshEntry {now ttl : Nat} {l : List (String × V)} :
    (l.map (freshEntry now ttl)).map Prod.fst = l.map Prod.fst := by
  rw [List.map_map]
  exact List.map_congr_left fun p _ => rfl

theorem cacheSet_fresh_eq {s : CacheState V} {k : String} (hl : s.table.lookup k = none)
    (now ttl : Nat) (v : V) :
    cacheSet now s k v ttl =
      (if s.capacity ≤ s.table.length then
        (match s.order.getLast? with
          | some t => { s with order := k :: s.order.dropLast, table := mapErase s.table t ++ [(k, ⟨v, now + ttl * 1000⟩)] }
          | none => { s with order := k :: s.order, table := s.table ++ [(k, ⟨v, now + ttl * 1000⟩)] })
      else { s with order := k :: s.order, table := s.table ++ [(k, ⟨v, now + ttl * 1000⟩)] }) := by
  unfold cacheSet
  rw [hl]
  by_cases hcap : s.capacity ≤ s.table.length
  · rw [if_pos hcap, if_pos hcap]
    cases s.order.getLast? <;> rfl
  · rw [if_neg hcap, if_neg hcap]

/-- Running `set` over a list of distinct fresh keys from the empty cache
leaves exactly the last `capacity` insertions, in insertion order in the
`Map` and in reverse insertion order (most recent first) in the recency
list. -/
theorem foldl_setStep_distinct (V : Type) (C now ttl : Nat) (hC : 0 < C)
    (p : List (String × V)) (hnd : (p.map Prod.fst).Nodup) :
    p.foldl (setStep now ttl) (emptyCache V C) =
      { capacity := C,
        order := ((p.drop (p.length - C)).map Prod.fst).reverse,
        table := (p.drop (p.length - C)).map (freshEntry now ttl) } := by
  induction p using List.reverseRecOn with
  | nil => simp [emptyCache]
  | append_singleton p kv ih =>
    obtain ⟨k, v⟩ := kv
    have hmm := hnd
    rw [List.map_append] at hmm
    obtain ⟨hndp, -, hdisj⟩ := List.nodup_append.mp hmm
    have hfresh : k ∉ p.map Prod.fst := fun hm => hdisj hm (by simp)
    rw [List.foldl_concat, ih hndp]
    have hlookup :
        (((p.drop (p.length - C)).map (freshEntry now ttl)).lookup k) = none := by
      refine lookup_eq_none_iff.mpr ?_
      rw [keys_map_freshEntry]
      intro hm
      obtain ⟨x, hx, hxk⟩ := List.mem_map.mp hm
      exact hfresh (List.mem_map.mpr ⟨x, (List.drop_sublist _ p).mem hx, hxk⟩)
    by_cases hc : C ≤ p.length
    · -- the cache is full: the least recently used entry is evicted
      have hqlen : (p.drop (p.length - C)).length = C := by
        rw [List.length_drop]; omega
      cases hq : p.drop (p.length - C) with
      | nil => rw [hq] at hqlen; simp at hqlen; omega
      | cons qh qt =>
        rw [hq] at hqlen
        rw [List.length_cons] at hqlen
        rw [hq] at hlookup
        simp only [setStep]
        rw [cacheSet_fresh_eq hlookup]
        dsimp only
        rw [if_pos (by rw [List.length_map, List.length_cons]; omega)]
        rw [show (((qh :: qt).map Prod.fst).reverse).getLast? = some qh.1 from by
          rw [List.getLast?_reverse]; rfl]
        rw [show (((qh :: qt).map Prod.fst).reverse).dropLast = (qt.map Prod.fst).reverse from by
          rw [List.dropLast_reverse]; rfl]
        dsimp only
        rw [show mapErase ((qh :: qt).map (freshEntry now ttl)) qh.1
            = qt.map (freshEntry now ttl) from by
          rw [List.map_cons]; exact List.eraseP_cons_of_pos (by simp [freshEntry])]
        have hdrop : (p ++ [(k, v)]).drop ((p ++ [(k, v)]).length - C) = qt ++ [(k, v)] := by
          rw [List.length_append, List.length_singleton]
          rw [List.drop_append_of_le_length (by omega)]
          rw [show p.length + 1 - C = (p.length - C) + 1 from by omega]
          rw [← List.tail_drop, hq]
          rfl
        rw [hdrop]
        simp [freshEntry, List.reverse_concat]
    · -- still below capacity: the new entry is simply appended
      have hd0 : p.length - C = 0 := by omega
      rw [hd0, List.drop_zero] at hlookup ⊢
      simp only [setStep]
      rw [cacheSet_fresh_eq hlookup]
      dsimp only
      rw [if_neg (by rw [List.length_map]; omega)]
      have hd1 : (p ++ [(k, v)]).length - C = 0 := by
        rw [List.length_append, List.length_singleton]; omega
      rw [hd1, List.drop_zero]
      simp [freshEntry, List.reverse_concat]

/-! ### Evaluation lemmas for `get` and `set` -/

theorem cacheGet_miss {s : CacheState V} {k : String} {now : Nat}
    (hl : s.table.lookup k = none) :
    cacheGet now s k = (none, s) := by
  unfold cacheGet
  rw [hl]

theorem cacheGet_hit {s : CacheState V} {k : String} {n : LRUNode V} {now : Nat}
    (hl : s.table.lookup k = some n) (he : n.isExpired now = false) :
    (cacheGet now s k).1 = some n.value := by
  unfold cacheGet
  rw [hl]
  simp [he]

theorem lookup_map_freshEntry {now ttl : Nat} {l : List (String × V)} {k : String} {v : V}
    (hnd : (l.map Prod.fst).Nodup) (h : (k, v) ∈ l) :
    (l.map (freshEntry now ttl)).lookup k = some ⟨v, now + ttl * 1000⟩ := by
  refine lookup_of_mem_nodup ?_ ?_
  · rw [keys_map_freshEntry]; exact hnd
  · exact List.mem_map.mpr ⟨(k, v), h, rfl⟩

theorem fresh_not_expired (now ttl : Nat) :
    (LRUNode.isExpired now ⟨v, now + ttl * 1000⟩ : Bool) = false := by
  simp [LRUNode.isExpired]

/-! ### Claim C1 -/

/-- C1: over any run of `set` calls with distinct keys (no intervening
`get`s, all at one timestamp so nothing expires), the number of entries in
the cache never exceeds the configured capacity `C`; and after inserting
`C + 1` distinct keys, exactly the first-inserted key has been evicted —
a `get` for it misses — while every other inserted key is still
retrievable with its inserted value. -/
theorem C1_capacity_and_lru_eviction (V : Type) (C now ttl : Nat) (hC : 0 < C)
    (inserts : List (String × V)) (hnd : (inserts.map Prod.fst).Nodup) :
    (∀ n : Nat,
       statsSize ((inserts.take n).foldl (setStep now ttl) (emptyCache V C)) ≤ C)
    ∧ (inserts.length = C + 1 →
        ((inserts.foldl (setStep now ttl) (emptyCache V C)).table.map Prod.fst
            = (inserts.map Prod.fst).tail
         ∧ (∀ p0 ∈ inserts.head?,
              (cacheGet now (inserts.foldl (setStep now ttl) (emptyCache V C)) p0.1).1 = none)
         ∧ (∀ p ∈ inserts.tail,
              (cacheGet now (inserts.foldl (setStep now ttl) (emptyCache V C)) p.1).1
                = some p.2))) := by
  constructor
  · intro n
    have hndn : ((inserts.take n).map Prod.fst).Nodup := by
      rw [List.map_take]
      exact List.Nodup.sublist (List.take_sublist n _) hnd
    rw [foldl_setStep_distinct V C now ttl hC _ hndn]
    simp only [statsSize, List.length_map, List.length_drop]
    omega
  · intro hlen
    have heq := foldl_setStep_distinct V C now ttl hC inserts hnd
    rw [hlen, show C + 1 - C = 1 from by omega, List.drop_one] at heq
    have hndt : (inserts.tail.map Prod.fst).Nodup := by
      have hsub : inserts.tail.Sublist inserts := List.tail_sublist inserts
      exact List.Nodup.sublist (hsub.map Prod.fst) hnd
    refine ⟨?_, ?_, ?_⟩
    · rw [heq]
      dsimp only
      rw [keys_map_freshEntry]
      cases inserts <;> rfl
    · intro p0 hp0
      cases inserts with
      | nil => simp at hp0
      | cons i0 it =>
        have hp0i : i0 = p0 := by simpa using hp0
        subst hp0i
        have hi0 : i0.1 ∉ it.map Prod.fst := by
          rw [List.map_cons] at hnd
          exact (List.nodup_cons.mp hnd).1
        have hlk : (((i0 :: it).tail.map (freshEntry now ttl)).lookup i0.1) = none := by
          refine lookup_eq_none_iff.mpr ?_
          rw [keys_map_freshEntry]
          exact hi0
        rw [heq, cacheGet_miss hlk]
    · intro p hp
      rw [heq]
      exact cacheGet_hit (lookup_map_freshEntry hndt hp) (fresh_not_expired now ttl)

/-- Witness for C1 at capacity 2 with the three distinct keys A, B, C:
the size bound holds at every prefix and, after the third insertion, A has
been evicted while B and C are still retrievable. -/
theorem C1_capacity_and_lru_eviction_witness :
    statsSize (([("A", 1), ("B", 2), ("C", 3)].take 3).foldl (setStep 0 3600) (emptyCache Nat 2)) ≤ 2
    ∧ ([("A", 1), ("B", 2), ("C", 3)].foldl (setStep 0 3600) (emptyCache Nat 2)).table.map Prod.fst
        = ["B", "C"]
    ∧ (cacheGet 0 ([("A", 1), ("B", 2), ("C", 3)].foldl (setStep 0 3600) (emptyCache Nat 2)) "A").1
        = none
    ∧ (cacheGet 0 ([("A", 1), ("B", 2), ("C", 3)].foldl (setStep 0 3600) (emptyCache Nat 2)) "B").1
        = some 2 := by
  have h := C1_capacity_and_lru_eviction Nat 2 0 3600 (by decide)
    [("A", 1), ("B", 2), ("C", 3)] (by decide)
  have h2 := h.2 rfl
  exact ⟨h.1 3, h2.1, h2.2.1 ("A", 1) rfl, h2.2.2 ("B", 2) (by decide)⟩

/-! ### Claims C2, C7, C8 -/

/-- C2: a successful unexpired `get` moves the accessed entry to the head
of the recency list (most recently used); consequently, with capacity 2,
after set(A), set(B), get(A), set(C) with three distinct keys it is B that
is evicted while A and C are still retrievable. -/
theorem C2_get_promotes_to_mru :
    (∀ (V : Type) (s : CacheState V) (now : Nat) (k : String) (n : LRUNode V),
       s.table.lookup k = some n → n.isExpired now = false →
       (cacheGet now s k).2.order = k :: s.order.erase k)
    ∧ ((cacheGet 0 (cacheSet 0 (cacheGet 0 (cacheSet 0 (cacheSet 0 (emptyCache Nat 2) "A" 1 3600) "B" 2 3600) "A").2 "C" 3 3600) "B").1 = none
       ∧ (cacheGet 0 (cacheSet 0 (cacheGet 0 (cacheSet 0 (cacheSet 0 (emptyCache Nat 2) "A" 1 3600) "B" 2 3600) "A").2 "C" 3 3600) "A").1 = some 1
       ∧ (cacheGet 0 (cacheSet 0 (cacheGet 0 (cacheSet 0 (cacheSet 0 (emptyCache Nat 2) "A" 1 3600) "B" 2 3600) "A").2 "C" 3 3600) "C").1 = some 3) := by
  refine ⟨?_, by decide, by decide, by decide⟩
  intro V s now k n hl he
  unfold cacheGet
  rw [hl]
  simp [he]

/-- Witness for C2: the general promotion component applied to a concrete
one-entry cache. -/
theorem C2_get_promotes_to_mru_witness :
    (cacheGet 0 ({ capacity := 2, order := ["A"], table := [("A", ⟨5, 100⟩)] } : CacheState Nat) "A").2.order = ["A"] :=
  C2_get_promotes_to_mru.1 Nat _ 0 "A" ⟨5, 100⟩ (by decide) (by decide)

/-- C7: `set` on an already-present key replaces the entry in place — the
key set and the size of the `Map` are unchanged, so no eviction happens —
and with capacity 1 the run set(A, 10), set(A, 20) keeps A with a `get`
returning 20. -/
theorem C7_update_in_place_no_eviction :
    (∀ (V : Type) (s : CacheState V) (now : Nat) (k : String) (v : V) (ttl : Nat)
       (n : LRUNode V), s.table.lookup k = some n →
       (cacheSet now s k v ttl).table.map Prod.fst = s.table.map Prod.fst
       ∧ statsSize (cacheSet now s k v ttl) = statsSize s)
    ∧ ((cacheGet 0 (cacheSet 0 (cacheSet 0 (emptyCache Nat 1) "A" 10 3600) "A" 20 3600) "A").1 = some 20
       ∧ (cacheSet 0 (cacheSet 0 (emptyCache Nat 1) "A" 10 3600) "A" 20 3600).table.map Prod.fst = ["A"]) := by
  refine ⟨?_, by decide, by decide⟩
  intro V s now k v ttl n hl
  unfold cacheSet
  rw [hl]
  exact ⟨keys_update, by simp [statsSize]⟩

/-- Witness for C7: the general update-in-place component applied to a
concrete one-entry cache. -/
theorem C7_update_in_place_no_eviction_witness :
    (cacheSet 0 ({ capacity := 1, order := ["A"], table := [("A", ⟨5, 100⟩)] } : CacheState Nat) "A" 9 3600).table.map Prod.fst = ["A"]
    ∧ statsSize (cacheSet 0 ({ capacity := 1, order := ["A"], table := [("A", ⟨5, 100⟩)] } : CacheState Nat) "A" 9 3600) = 1 :=
  C7_update_in_place_no_eviction.1 Nat _ 0 "A" 9 3600 ⟨5, 100⟩ (by decide)

/-- C8: every operation of `MemoryCacheService` — `get`, `set`, `delete`,
`clear`, `cleanup` — preserves the agreement between the linked list and
the `Map`: afterwards the recency list is still a duplicate-free
permutation of the `Map` keys, so a key is reachable from the head
sentinel exactly when it has a `Map` entry. -/
theorem C8_ops_preserve_list_map_agreement (V : Type) (s : CacheState V) (h : WF s)
    (now ttl : Nat) (k : String) (v : V) :
    (WF (cacheGet now s k).2
      ∧ ∀ x, x ∈ (cacheGet now s k).2.order ↔ x ∈ (cacheGet now s k).2.table.map Prod.fst)
    ∧ (WF (cacheSet now s k v ttl)
      ∧ ∀ x, x ∈ (cacheSet now s k v ttl).order ↔ x ∈ (cacheSet now s k v ttl).table.map Prod.fst)
    ∧ (WF (cacheDelete s k).2
      ∧ ∀ x, x ∈ (cacheDelete s k).2.order ↔ x ∈ (cacheDelete s k).2.table.map Prod.fst)
    ∧ (WF (cacheClear s)
      ∧ ∀ x, x ∈ (cacheClear s).order ↔ x ∈ (cacheClear s).table.map Prod.fst)
    ∧ (WF (cacheCleanup now s)
      ∧ ∀ x, x ∈ (cacheCleanup now s).order ↔ x ∈ (cacheCleanup now s).table.map Prod.fst) :=
  ⟨⟨WF_cacheGet h now k, fun _ => (WF_cacheGet h now k).mem_iff⟩,
   ⟨WF_cacheSet h now k v ttl, fun _ => (WF_cacheSet h now k v ttl).mem_iff⟩,
   ⟨WF_cacheDelete h k, fun _ => (WF_cacheDelete h k).mem_iff⟩,
   ⟨WF_cacheClear s, fun _ => (WF_cacheClear s).mem_iff⟩,
   ⟨WF_cacheCleanup h now, fun _ => (WF_cacheCleanup h now).mem_iff⟩⟩

/-- Witness for C8: the agreement is preserved on a concrete two-entry
well-formed cache state. -/
theorem C8_ops_preserve_list_map_agreement_witness :
    ("A" ∈ (cacheSet 0 ({ capacity := 2, order := ["B", "A"], table := [("A", ⟨1, 50⟩), ("B", ⟨2, 50⟩)] } : CacheState Nat) "C" 3 3600).order
      ↔ "A" ∈ (cacheSet 0 ({ capacity := 2, order := ["B", "A"], table := [("A", ⟨1, 50⟩), ("B", ⟨2, 50⟩)] } : CacheState Nat) "C" 3 3600).table.map Prod.fst) :=
  (C8_ops_preserve_list_map_agreement Nat _ ⟨by decide, by decide⟩ 0 3600 "C" 3).2.1.2 "A"

/-! ### Claim C3: TTL expiry -/

theorem lookup_cacheSet_self {s : CacheState V} (now ttl : Nat) (k : String) (v : V) :
    (cacheSet now s k v ttl).table.lookup k = some ⟨v, now + ttl * 1000⟩ := by
  cases hl : s.table.lookup k with
  | some n =>
    unfold cacheSet
    rw [hl]
    exact lookup_update_self hl
  | none =>
    rw [cacheSet_fresh_eq hl]
    have hk : k ∉ s.table.map Prod.fst := lookup_eq_none_iff.mp hl
    have happ : ∀ l : List (String × LRUNode V), k ∉ l.map Prod.fst →
        ((l ++ [(k, (⟨v, now + ttl * 1000⟩ : LRUNode V))]).lookup k
          = some ⟨v, now + ttl * 1000⟩) := by
      intro l hkl
      rw [lookup_append_right hkl]
      exact lookup_cons_self
    split
    · cases s.order.getLast? with
      | some t =>
        dsimp only
        refine happ _ fun hm => ?_
        rw [keys_mapErase] at hm
        exact hk (List.mem_of_mem_erase hm)
      | none => exact happ _ hk
    · exact happ _ hk

theorem cacheGet_expired {s : CacheState V} {k : String} {n : LRUNode V} {now : Nat}
    (hl : s.table.lookup k = some n) (he : n.isExpired now = true) :
    cacheGet now s k
      = (none, { s with order := s.order.erase k, table := mapErase s.table k }) := by
  unfold cacheGet
  rw [hl]
  dsimp only
  rw [if_pos he]

theorem mem_foldl_cleanupStep {st : CacheState V} (h : WF st) (ks : List String)
    {p : String × LRUNode V} (hp : p ∈ (ks.foldl cleanupStep st).table) :
    p ∈ st.table ∧ p.1 ∉ ks := by
  induction ks generalizing st with
  | nil => exact ⟨hp, List.not_mem_nil _⟩
  | cons a tl ih =>
    obtain ⟨h1, h2⟩ := ih (WF_cleanupStep h a) hp
    unfold cleanupStep at h1
    cases hl : st.table.lookup a with
    | none =>
      rw [hl] at h1
      refine ⟨h1, fun hmem => ?_⟩
      rcases List.mem_cons.mp hmem with heq | htl
      · exact lookup_eq_none_iff.mp hl (heq ▸ List.mem_map.mpr ⟨p, h1, rfl⟩)
      · exact h2 htl
    | some n =>
      rw [hl] at h1
      obtain ⟨hmem, hne⟩ := mem_mapErase_ne h.keysNodup h1
      refine ⟨hmem, fun hin => ?_⟩
      rcases List.mem_cons.mp hin with heq | htl
      · exact hne heq
      · exact h2 htl

/-- C3: with `set(k, v, ttl)` issued at time `t0` on a well-formed cache,
a `get` at any `t1 ≤ t0 + ttl·1000` returns `v`; a `get` at any
`t2 > t0 + ttl·1000` reports a miss, removes the entry — the key leaves
the `Map`, the reported size drops by one, and the recency list loses the
key instead of promoting it — and `cleanup` at `t2` leaves no expired
entry in the cache, independent of recency. -/
theorem C3_ttl_expiry (V : Type) (s : CacheState V) (h : WF s) (k : String) (v : V)
    (t0 ttl t1 t2 : Nat) (h1 : t1 ≤ t0 + ttl * 1000) (h2 : t0 + ttl * 1000 < t2) :
    ((cacheGet t1 (cacheSet t0 s k v ttl) k).1 = some v)
    ∧ ((cacheGet t2 (cacheSet t0 s k v ttl) k).1 = none
       ∧ statsSize (cacheGet t2 (cacheSet t0 s k v ttl) k).2
           = statsSize (cacheSet t0 s k v ttl) - 1
       ∧ k ∉ (cacheGet t2 (cacheSet t0 s k v ttl) k).2.table.map Prod.fst
       ∧ (cacheGet t2 (cacheSet t0 s k v ttl) k).2.order
           = (cacheSet t0 s k v ttl).order.erase k)
    ∧ (∀ x ∈ (cacheCleanup t2 s).table, x.2.isExpired t2 = false) := by
  have hset := lookup_cacheSet_self (s := s) t0 ttl k v
  have hWFset : WF (cacheSet t0 s k v ttl) := WF_cacheSet h t0 k v ttl
  have hkmem : k ∈ (cacheSet t0 s k v ttl).table.map Prod.fst := mem_keys_of_lookup hset
  have hexp : (LRUNode.isExpired t2 ⟨v, t0 + ttl * 1000⟩ : Bool) = true := by
    simp only [LRUNode.isExpired, decide_eq_true_eq]
    exact h2
  refine ⟨?_, ⟨?_, ?_, ?_, ?_⟩, ?_⟩
  · refine cacheGet_hit hset ?_
    simp only [LRUNode.isExpired, decide_eq_false_iff_not, not_lt]
    exact h1
  · rw [cacheGet_expired hset hexp]
  · rw [cacheGet_expired hset hexp]
    simp only [statsSize]
    exact length_mapErase_of_mem hkmem
  · rw [cacheGet_expired hset hexp]
    intro hmem
    simp only [keys_mapErase] at hmem
    exact (hWFset.keysNodup.mem_erase_iff.mp hmem).1 rfl
  · rw [cacheGet_expired hset hexp]
  · intro x hx
    unfold cacheCleanup at hx
    by_contra hexp
    rw [Bool.not_eq_false] at hexp
    have hmem := mem_foldl_cleanupStep h _ hx
    exact hmem.2 (List.mem_map.mpr ⟨x, List.mem_filter.mpr ⟨hmem.1, hexp⟩, rfl⟩)

/-- Witness for C3: key set at t0 = 0 with ttl 1 s, read back at 1000 ms
(hit) and at 1100 ms (miss and removal). -/
theorem C3_ttl_expiry_witness :
    ((cacheGet 1000 (cacheSet 0 (emptyCache Nat 10) "k" 7 1) "k").1 = some 7)
    ∧ ((cacheGet 1100 (cacheSet 0 (emptyCache Nat 10) "k" 7 1) "k").1 = none) := by
  have h := C3_ttl_expiry Nat (emptyCache Nat 10) ⟨List.Perm.refl _, List.nodup_nil⟩
    "k" 7 0 1 1000 1100 (by omega) (by omega)
  exact ⟨h.1, h.2.1.1⟩

/-! ### The unified cache layer (`src/lib/cache/index.ts`)

`UnifiedCacheService` keeps an optional remote (Redis) client next to the
shared in-process `MemoryCacheService`.  The remote store lives out of
process; what each method observes of it is the outcome of the awaited
client call, embedded as an explicit `Except Unit α` argument: `.error`
for a rejected/thrown remote operation (caught by the `catch` blocks),
`.ok` for a successful one. -/

/-- Fields of `UnifiedCacheService` relevant to its behaviour: `useRedis`
(the constructor establishes that the remote client is present exactly
when this is true) and the in-process cache. -/
structure UnifiedState (V : Type) where
  useRedis : Bool
  memory : CacheState V
  deriving Repr, DecidableEq

/-- `UnifiedCacheService.get`: with a remote backend its result is
returned directly; a remote throw is caught and the lookup is retried on
the in-process cache, which is also the only path when no remote backend
is configured.  The caller receives a plain optional value in every case —
no backend error escapes. -/
def unifiedGet (remote : Except Unit (Option V)) (now : Nat) (s : UnifiedState V)
    (k : String) : Option V × UnifiedState V :=
  if s.useRedis then
    match remote with
    | .ok r => (r, s)
    | .error _ =>
      let r := cacheGet now s.memory k
      (r.1, { s with memory := r.2 })
  else
    let r := cacheGet now s.memory k
    (r.1, { s with memory := r.2 })

/-- `UnifiedCacheService.set`: a successful remote set returns early; a
remote throw is caught and the value is written to the in-process cache,
as it is when no remote backend is configured. -/
def unifiedSet (remote : Except Unit Unit) (now : Nat) (s : UnifiedState V)
    (k : String) (v : V) (ttl : Nat) : UnifiedState V :=
  if s.useRedis then
    match remote with
    | .ok _ => s
    | .error _ => { s with memory := cacheSet now s.memory k v ttl }
  else { s with memory := cacheSet now s.memory k v ttl }

/-- `UnifiedCacheService.delete`: a successful remote delete returns its
boolean directly — the early `return` skips the in-process delete; a
remote throw is caught and the delete falls through to the in-process
cache, as when no remote backend is configured. -/
def unifiedDelete (remote : Except Unit Bool) (s : UnifiedState V) (k : String) :
    Bool × UnifiedState V :=
  if s.useRedis then
    match remote with
    | .ok b => (b, s)
    | .error _ =>
      let r := cacheDelete s.memory k
      (r.1, { s with memory := r.2 })
  else
    let r := cacheDelete s.memory k
    (r.1, { s with memory := r.2 })

/-- `UnifiedCacheService.clear`: the remote clear is attempted first (a
throw is only logged); the in-process cache is cleared afterwards in every
case. -/
def unifiedClear (_remote : Except Unit Unit) (s : UnifiedState V) : UnifiedState V :=
  { s with memory := cacheClear s.memory }

/-- Redis `KEYS`-style glob matching of a pattern against a key: `*`
matches any sequence, `?` any single character, every other character
itself.  Used to express which keys a pattern invalidation covers; a
pattern without wildcards matches exactly the key spelled like it. -/
def globMatch : List Char → List Char → Bool
  | [], [] => true
  | '*' :: ps, [] => globMatch ps []
  | _ :: _, [] => false
  | [], _ :: _ => false
  | '*' :: ps, c :: ks => globMatch ps (c :: ks) || globMatch ('*' :: ps) ks
  | '?' :: ps, _ :: ks => globMatch ps ks
  | p :: ps, c :: ks => (p = c) && globMatch ps ks
termination_by ps ks => (ks.length, ps.length)

/-- Pattern matching over whole strings. -/
def matchesPattern (pattern key : String) : Bool :=
  globMatch pattern.toList key.toList

/-- `invalidateCache(pattern)` from `index.ts`: the remote
pattern-invalidation attempt touches no in-process state (its failure is
only logged); afterwards, the whole cache is cleared through
`UnifiedCacheService.clear` — which always clears the in-process cache —
but only when the pattern string contains a `*`
(`pattern.includes('*')`, embedded as membership of `*` in the pattern's
characters). -/
def invalidateCache (remoteClear : Except Unit Unit) (s : UnifiedState V)
    (pattern : String) : UnifiedState V :=
  if pattern.toList.contains '*' then unifiedClear remoteClear s else s

/-! ### Claim C4: pattern invalidation of the in-process cache -/

/-- C4 fails as stated: a wildcard-free pattern matches exactly its own
key, yet `invalidateCache` leaves the in-process cache untouched, so a
matching entry is still retrievable afterwards.  Concretely, with only the
in-process cache active and `product:1` cached, invalidating with the
pattern `product:1` leaves `product:1` retrievable. -/
theorem C4_counterexample :
    matchesPattern "product:1" "product:1" = true
    ∧ (cacheGet 0 (invalidateCache (Except.ok ())
        ({ useRedis := false,
           memory := { capacity := 10, order := ["product:1"], table := [("product:1", ⟨42, 1000000⟩)] } } : UnifiedState Nat)
        "product:1").memory "product:1").1 = some 42 := by
  constructor
  · simp [matchesPattern, globMatch]
  · decide

/-- C4 amended: `invalidateCache` clears the entire in-process cache —
after which no key at all, in particular no key matching the pattern, is
retrievable — exactly when the pattern contains a `*`; a pattern without
`*` leaves the unified state unchanged. -/
theorem C4_star_pattern_clears_memory (V : Type) (remote : Except Unit Unit)
    (s : UnifiedState V) (pattern : String) :
    (pattern.toList.contains '*' = true →
       ∀ (k : String) (now : Nat),
         (cacheGet now (invalidateCache remote s pattern).memory k).1 = none)
    ∧ (pattern.toList.contains '*' = false → invalidateCache remote s pattern = s) := by
  constructor
  · intro hstar k now
    unfold invalidateCache
    rw [if_pos hstar]
    rw [show (cacheGet now (unifiedClear remote s).memory k) = (none, (unifiedClear remote s).memory) from cacheGet_miss rfl]
  · intro hstar
    unfold invalidateCache
    rw [hstar]
    rfl

/-- Witness for C4 (amended): the pattern `product:*` clears everything —
the cached key `product:1` misses afterwards — and the wildcard-free
pattern `product:1` leaves the state unchanged. -/
theorem C4_star_pattern_clears_memory_witness :
    (cacheGet 0 (invalidateCache (Except.ok ())
        ({ useRedis := false,
           memory := { capacity := 10, order := ["product:1"], table := [("product:1", ⟨42, 1000000⟩)] } } : UnifiedState Nat)
        "product:*").memory "product:1").1 = none
    ∧ invalidateCache (Except.ok ())
        ({ useRedis := false,
           memory := { capacity := 10, order := ["product:1"], table := [("product:1", ⟨42, 1000000⟩)] } } : UnifiedState Nat)
        "product:1"
      = { useRedis := false,
          memory := { capacity := 10, order := ["product:1"], table := [("product:1", ⟨42, 1000000⟩)] } } :=
  ⟨(C4_star_pattern_clears_memory Nat (Except.ok ()) _ "product:*").1 (by decide) "product:1" 0,
   (C4_star_pattern_clears_memory Nat (Except.ok ()) _ "product:1").2 (by decide)⟩

/-! ### Claim C5: `delete` and the in-process cache -/

/-- C5 fails as stated: when the remote delete succeeds, the early
`return` skips the in-process delete, so the key is still retrievable
from the memory cache afterwards. -/
theorem C5_counterexample :
    (cacheGet 0 (unifiedDelete (Except.ok true)
        ({ useRedis := true,
           memory := { capacity := 10, order := ["k"], table := [("k", ⟨1, 99999⟩)] } } : UnifiedState Nat)
        "k").2.memory "k").1 = some 1 := by
  decide

theorem lookup_after_cacheDelete {s : CacheState V} (h : WF s) (k : String) :
    ((cacheDelete s k).2).table.lookup k = none := by
  unfold cacheDelete
  cases hl : s.table.lookup k with
  | none => exact hl
  | some n =>
    refine lookup_eq_none_iff.mpr ?_
    intro hm
    simp only [keys_mapErase] at hm
    exact (h.keysNodup.mem_erase_iff.mp hm).1 rfl

/-- C5 amended: `delete` removes the key from the in-process cache
whenever the memory path runs — that is, when no remote backend is active
or when the remote delete throws; after such a `delete`, a memory-cache
`get` for the key misses.  (When the remote delete succeeds, the memory
cache is not touched; in the shipped code that branch happens to be
unreachable because the Redis service class has no `delete` method, so the
call always throws.) -/
theorem C5_delete_clears_memory_on_fallback (V : Type) (s : UnifiedState V)
    (h : WF s.memory) (k : String) (remote : Except Unit Bool) (now : Nat)
    (hcase : s.useRedis = false ∨ remote = Except.error ()) :
    (cacheGet now (unifiedDelete remote s k).2.memory k).1 = none := by
  have hmem : (unifiedDelete remote s k).2.memory = (cacheDelete s.memory k).2 := by
    unfold unifiedDelete
    rcases hcase with hr | hr
    · rw [hr]
      rfl
    · rw [hr]
      cases hred : s.useRedis <;> rfl
  rw [hmem, show cacheGet now (cacheDelete s.memory k).2 k = (none, (cacheDelete s.memory k).2) from cacheGet_miss (lookup_after_cacheDelete h k)]

/-- Witness for C5 (amended): with the remote delete throwing, the key
is gone from the in-process cache. -/
theorem C5_delete_clears_memory_on_fallback_witness :
    (cacheGet 0 (unifiedDelete (Except.error ())
        ({ useRedis := true,
           memory := { capacity := 10, order := ["k"], table := [("k", ⟨1, 99999⟩)] } } : UnifiedState Nat)
        "k").2.memory "k").1 = none :=
  C5_delete_clears_memory_on_fallback Nat _ ⟨by decide, by decide⟩ "k" (Except.error ()) 0 (Or.inr rfl)

/-! ### Claim C6: fallback correctness of the unified layer -/

/-- C6: when every remote operation fails (`Except.error`, caught by the
`catch` blocks), `get` and `set` still complete through the in-process
cache — by construction they return plain values, so no backend error
reaches the caller — a failing `get` falls back to exactly the in-process
lookup, and a value `set` while the remote is failing is retrievable by a
subsequent `get` from the same process. -/
theorem C6_fallback_to_memory (V : Type) (s : UnifiedState V) (now : Nat)
    (k : String) (v : V) (ttl : Nat) :
    ((unifiedGet (Except.error ()) now s k).1 = (cacheGet now s.memory k).1)
    ∧ ((unifiedSet (Except.error ()) now s k v ttl).memory = cacheSet now s.memory k v ttl)
    ∧ ((unifiedGet (Except.error ()) now
          (unifiedSet (Except.error ()) now s k v ttl) k).1 = some v) := by
  have hget : ∀ s' : UnifiedState V,
      (unifiedGet (Except.error ()) now s' k).1 = (cacheGet now s'.memory k).1 := by
    intro s'
    unfold unifiedGet
    cases s'.useRedis <;> rfl
  have hset : (unifiedSet (Except.error ()) now s k v ttl).memory
      = cacheSet now s.memory k v ttl := by
    unfold unifiedSet
    cases s.useRedis <;> rfl
  refine ⟨hget s, hset, ?_⟩
  rw [hget _, hset]
  exact cacheGet_hit (lookup_cacheSet_self now ttl k v) (fresh_not_expired now ttl)

/-! ### Claim C10: a stored `null` is indistinguishable from absence -/

/-- The `withCache` decorator from `index.ts` in the memory-only
configuration, for one invocation of the wrapped method: a JavaScript
`null` payload is `none : Option W`, the `T | null` result of `cache.get`
flattens through `Option.join`, `cached !== null` selects the cached
branch, and otherwise the method runs and its result (possibly `null`) is
cached.  Returns the call's result, the cache state afterwards, and
whether the wrapped method was executed. -/
def withCacheCall (method : Option W) (now : Nat) (s : CacheState (Option W))
    (k : String) (ttl : Nat) : Option W × CacheState (Option W) × Bool :=
  let r := cacheGet now s k
  match r.1.join with
  | some cv => (some cv, r.2, false)
  | none => (method, cacheSet now r.2 k method ttl, true)

/-- C10: at the public interface a stored `null` and an absent key are the
same observation — after `set(k, null)` a `get` returns `null`, exactly as
for a never-set key — and therefore `withCache` runs the wrapped method on
a call whose cache read is `null`, and after a call whose computed result
was `null` the next call for the same key runs the method again instead of
serving the cache. -/
theorem C10_null_indistinguishable_and_recompute (W : Type)
    (s : CacheState (Option W)) (k : String) (now ttl : Nat) :
    ((cacheGet now (cacheSet now s k none ttl) k).1.join = none)
    ∧ (k ∉ s.table.map Prod.fst → (cacheGet now s k).1.join = none)
    ∧ ((cacheGet now s k).1.join = none →
        ∀ m : Option W, (withCacheCall m now s k ttl).2.2 = true)
    ∧ ((cacheGet now s k).1.join = none →
        ∀ m : Option W,
          (withCacheCall m now (withCacheCall none now s k ttl).2.1 k ttl).2.2 = true) := by
  refine ⟨?_, ?_, ?_, ?_⟩
  · rw [cacheGet_hit (lookup_cacheSet_self now ttl k none) (fresh_not_expired now ttl)]
    rfl
  · intro hk
    rw [show cacheGet now s k = (none, s) from cacheGet_miss (lookup_eq_none_iff.mpr hk)]
    rfl
  · intro hnull m
    unfold withCacheCall
    dsimp only
    rw [hnull]
  · intro hnull m
    unfold withCacheCall
    dsimp only
    rw [hnull]
    dsimp only
    rw [cacheGet_hit (lookup_cacheSet_self now ttl k none) (fresh_not_expired now ttl)]
    rfl

/-- Witness for C10 on a concrete empty cache: setting `null` yields a
`null` read just like the never-set case, and both decorated calls execute
the wrapped method. -/
theorem C10_null_indistinguishable_and_recompute_witness :
    ((cacheGet 0 (cacheSet 0 (emptyCache (Option Nat) 5) "k" none 3600) "k").1.join = none)
    ∧ ((cacheGet 0 (emptyCache (Option Nat) 5) "k").1.join = none)
    ∧ ((withCacheCall (some 3) 0 (emptyCache (Option Nat) 5) "k" 3600).2.2 = true)
    ∧ ((withCacheCall (some 3) 0 (withCacheCall none 0 (emptyCache (Option Nat) 5) "k" 3600).2.1 "k" 3600).2.2 = true) := by
  have h := C10_null_indistinguishable_and_recompute Nat (emptyCache (Option Nat) 5) "k" 0 3600
  exact ⟨h.1, h.2.1 (by decide), h.2.2.1 (by decide) (some 3), h.2.2.2 (by decide) (some 3)⟩

/-! ### Claim C9: `searchKey` and filter encoding

`searchKey(query, filters)` builds
`search:<query>:<base64(JSON.stringify(filters))>`.  JavaScript values a
filter object can take are embedded as `JsValue` (numbers as integers —
the repository's filters carry prices, stock counts and strings);
structural equality of `JsValue` is deep equality of the underlying
values (in particular `\x7ba: undefined\x7d` and `\x7b\x7d` are distinct:
their key sets differ).  `JSON.stringify` is embedded with its observable
behaviour on this fragment: `undefined` is unrepresentable (`none` at top
level), object entries whose value is `undefined` are dropped, `undefined`
array elements print as `null`, strings are quoted with the standard JSON
escapes. -/

/-- A JavaScript value as it can appear in a `filters` argument. -/
inductive JsValue where
  | undef : JsValue
  | null : JsValue
  | bool : Bool → JsValue
  | num : Int → JsValue
  | str : String → JsValue
  | arr : List JsValue → JsValue
  | obj : List (String × JsValue) → JsValue

/-- Lower-case hexadecimal digit. -/
def hexDigit (n : Nat) : Char :=
  if n < 10 then Char.ofNat (48 + n) else Char.ofNat (87 + n)

/-- JSON escaping of one character, as `JSON.stringify` performs it:
quote and backslash escaped, the named control escapes, `\u00XX` for the
remaining control characters, everything else verbatim. -/
def jsonEscapeChar (c : Char) : String :=
  if c = '"' then "\\\""
  else if c = '\\' then "\\\\"
  else if c = '\x08' then "\\b"
  else if c = '\x09' then "\\t"
  else if c = '\x0a' then "\\n"
  else if c = '\x0c' then "\\f"
  else if c = '\x0d' then "\\r"
  else if c.toNat < 0x20 then "\\u00" ++ String.mk [hexDigit (c.toNat / 16), hexDigit (c.toNat % 16)]
  else String.singleton c

/-- A JSON string literal: quotes around the escaped characters. -/
def jsonQuote (s : String) : String :=
  "\"" ++ String.join (s.data.map jsonEscapeChar) ++ "\""

mutual

/-- `JSON.stringify` on the embedded fragment: `none` when the value is
`undefined` (unrepresentable at top level), otherwise its JSON text. -/
def stringify : JsValue → Option String
  | .undef => none
  | .null => some "null"
  | .bool b => some (if b then "true" else "false")
  | .num i => some (toString i)
  | .str s => some (jsonQuote s)
  | .arr xs => some ("[" ++ stringifyArr xs ++ "]")
  | .obj kvs => some ("\x7b" ++ stringifyObj kvs ++ "\x7d")

/-- Array elements, comma separated; an `undefined` element prints as
`null`. -/
def stringifyArr : List JsValue → String
  | [] => ""
  | [x] => (stringify x).getD "null"
  | x :: y :: rest => (stringify x).getD "null" ++ "," ++ stringifyArr (y :: rest)

/-- Object entries, comma separated; an entry whose value is `undefined`
is dropped. -/
def stringifyObj : List (String × JsValue) → String
  | [] => ""
  | (k, v) :: rest =>
    match stringify v with
    | none => stringifyObj rest
    | some vs =>
      jsonQuote k ++ ":" ++ vs ++ (if stringifyObj rest = "" then "" else "," ++ stringifyObj rest)

end

/-! UTF-8: `Buffer.from(string)` interprets the JavaScript string as
UTF-8 bytes. -/

/-- UTF-8 encoding of one code point. -/
def utf8EncodeChar (c : Nat) : List Nat :=
  if c < 0x80 then [c]
  else if c < 0x800 then [0xC0 + c / 64, 0x80 + c % 64]
  else if c < 0x10000 then [0xE0 + c / 4096, 0x80 + c / 64 % 64, 0x80 + c % 64]
  else [0xF0 + c / 0x40000, 0x80 + c / 4096 % 64, 0x80 + c / 64 % 64, 0x80 + c % 64]

/-- UTF-8 encoding of a string. -/
def utf8Encode (s : String) : List Nat :=
  s.data.flatMap (fun ch => utf8EncodeChar ch.toNat)

mutual

/-- UTF-8 decoding back to code points (on encoder output it inverts
`utf8Encode`; stray inputs may decode arbitrarily, which the proofs never
rely on).  The first byte selects the sequence length; the helpers below
consume the continuation bytes. -/
def utf8DecodeList : List Nat → Option (List Nat)
  | [] => some []
  | b :: rest =>
    if b < 0xC0 then (utf8DecodeList rest).map (b :: ·)
    else if b < 0xE0 then utf8DecodeCont2 b rest
    else if b < 0xF0 then utf8DecodeCont3 b rest
    else utf8DecodeCont4 b rest

/-- Continuation of a two-byte UTF-8 sequence. -/
def utf8DecodeCont2 : Nat → List Nat → Option (List Nat)
  | _, [] => none
  | b, b2 :: r => (utf8DecodeList r).map (((b - 0xC0) * 64 + (b2 - 0x80)) :: ·)

/-- Continuation of a three-byte UTF-8 sequence. -/
def utf8DecodeCont3 : Nat → List Nat → Option (List Nat)
  | _, [] => none
  | _, [_] => none
  | b, b2 :: b3 :: r =>
    (utf8DecodeList r).map (((b - 0xE0) * 4096 + (b2 - 0x80) * 64 + (b3 - 0x80)) :: ·)

/-- Continuation of a four-byte UTF-8 sequence. -/
def utf8DecodeCont4 : Nat → List Nat → Option (List Nat)
  | _, [] => none
  | _, [_] => none
  | _, [_, _] => none
  | b, b2 :: b3 :: b4 :: r =>
    (utf8DecodeList r).map
      (((b - 0xF0) * 0x40000 + (b2 - 0x80) * 4096 + (b3 - 0x80) * 64 + (b4 - 0x80)) :: ·)

end

/-! Base64, as `Buffer.prototype.toString('base64')` produces it:
standard alphabet with `=` padding. -/

/-- The base64 alphabet. -/
def base64Char (n : Nat) : Char :=
  if n < 26 then Char.ofNat (65 + n)
  else if n < 52 then Char.ofNat (97 + (n - 26))
  else if n < 62 then Char.ofNat (48 + (n - 52))
  else if n = 62 then '+'
  else '/'

/-- Base64 encoding of a byte list, three bytes per chunk with padding on
the final partial chunk. -/
def base64Chunks : List Nat → List Char
  | [] => []
  | [b1] => [base64Char (b1 / 4), base64Char (b1 % 4 * 16), '=', '=']
  | [b1, b2] => [base64Char (b1 / 4), base64Char (b1 % 4 * 16 + b2 / 16), base64Char (b2 % 16 * 4), '=']
  | b1 :: b2 :: b3 :: rest =>
      base64Char (b1 / 4) :: base64Char (b1 % 4 * 16 + b2 / 16)
        :: base64Char (b2 % 16 * 4 + b3 / 64) :: base64Char (b3 % 64) :: base64Chunks rest

/-- Inverse of the base64 alphabet (total; only its values on the 64
alphabet characters matter). -/
def base64CharDec (c : Char) : Nat :=
  if 65 ≤ c.toNat ∧ c.toNat ≤ 90 then c.toNat - 65
  else if 97 ≤ c.toNat ∧ c.toNat ≤ 122 then c.toNat - 97 + 26
  else if 48 ≤ c.toNat ∧ c.toNat ≤ 57 then c.toNat - 48 + 52
  else if c = '+' then 62
  else 63

/-- Base64 decoding (on encoder output it inverts `base64Chunks`). -/
def base64Decode : List Char → Option (List Nat)
  | [] => some []
  | c1 :: c2 :: c3 :: c4 :: rest =>
    match rest with
    | [] =>
      if c3 = '=' ∧ c4 = '=' then
        some [base64CharDec c1 * 4 + base64CharDec c2 / 16]
      else if c4 = '=' then
        some [base64CharDec c1 * 4 + base64CharDec c2 / 16,
              base64CharDec c2 % 16 * 16 + base64CharDec c3 / 4]
      else
        some [base64CharDec c1 * 4 + base64CharDec c2 / 16,
              base64CharDec c2 % 16 * 16 + base64CharDec c3 / 4,
              base64CharDec c3 % 4 * 64 + base64CharDec c4]
    | _ :: _ =>
      (base64Decode rest).map (fun bs =>
        (base64CharDec c1 * 4 + base64CharDec c2 / 16)
          :: (base64CharDec c2 % 16 * 16 + base64CharDec c3 / 4)
          :: (base64CharDec c3 % 4 * 64 + base64CharDec c4)
          :: bs)
  | _ => none

/-- `Buffer.from(s).toString('base64')`. -/
def bufferBase64 (s : String) : String :=
  String.mk (base64Chunks (utf8Encode s))

/-- `UnifiedCacheService.searchKey` (identical in `memory.ts` and
`redis.ts`): `search:<query>:<base64 of JSON.stringify(filters)>`; absent
when the filters are `undefined`, where the JavaScript code would throw. -/
def searchKey (query : String) (filters : JsValue) : Option String :=
  (stringify filters).map (fun fs => "search:" ++ query ++ ":" ++ bufferBase64 fs)

/-- C9 fails as stated: the distinct (not deep-equal) filter objects
`\x7ba: undefined\x7d` and `\x7b\x7d` stringify to the same JSON text
`\x7b\x7d`, so for any fixed query they collide on the same cache key. -/
theorem C9_counterexample :
    JsValue.obj [("a", JsValue.undef)] ≠ JsValue.obj []
    ∧ searchKey "q" (JsValue.obj [("a", JsValue.undef)]) = searchKey "q" (JsValue.obj []) := by
  constructor
  · intro h
    injection h with h2
    exact List.noConfusion h2
  · unfold searchKey
    rw [show stringify (JsValue.obj [("a", JsValue.undef)]) = some "\x7b\x7d" from by
        simp [stringify, stringifyObj],
      show stringify (JsValue.obj []) = some "\x7b\x7d" from by
        simp [stringify, stringifyObj]]

theorem base64CharDec_base64Char : ∀ n, n < 64 → base64CharDec (base64Char n) = n := by
  decide

theorem base64Char_ne_pad : ∀ n, n < 64 → base64Char n ≠ '=' := by
  decide

theorem base64Chunks_shape (l : List Nat) (h : l ≠ []) :
    ∃ e1 e2 e3 e4 tl, base64Chunks l = e1 :: e2 :: e3 :: e4 :: tl := by
  match l with
  | [] => exact absurd rfl h
  | [b1] => exact ⟨_, _, _, _, [], rfl⟩
  | [b1, b2] => exact ⟨_, _, _, _, [], rfl⟩
  | b1 :: b2 :: b3 :: rest => exact ⟨_, _, _, _, base64Chunks rest, rfl⟩

theorem base64Decode_base64Chunks :
    ∀ (n : Nat) (bs : List Nat), bs.length ≤ n → (∀ b ∈ bs, b < 256) →
      base64Decode (base64Chunks bs) = some bs := by
  intro n
  induction n with
  | zero =>
    intro bs hlen _
    match bs, hlen with
    | [], _ => rfl
  | succ n ih =>
    intro bs hlen hb
    match bs with
    | [] => rfl
    | [b1] =>
      have h1 : b1 < 256 := hb b1 (by simp)
      show base64Decode [base64Char (b1 / 4), base64Char (b1 % 4 * 16), '=', '='] = _
      unfold base64Decode
      rw [if_pos ⟨rfl, rfl⟩]
      rw [base64CharDec_base64Char _ (by omega), base64CharDec_base64Char _ (by omega)]
      rw [show b1 / 4 * 4 + b1 % 4 * 16 / 16 = b1 from by omega]
    | [b1, b2] =>
      have h1 : b1 < 256 := hb b1 (by simp)
      have h2 : b2 < 256 := hb b2 (by simp)
      show base64Decode [base64Char (b1 / 4), base64Char (b1 % 4 * 16 + b2 / 16),
        base64Char (b2 % 16 * 4), '='] = _
      unfold base64Decode
      rw [if_neg (fun hpair => base64Char_ne_pad (b2 % 16 * 4) (by omega) hpair.1)]
      rw [if_pos rfl]
      rw [base64CharDec_base64Char _ (by omega), base64CharDec_base64Char _ (by omega),
        base64CharDec_base64Char _ (by omega)]
      rw [show b1 / 4 * 4 + (b1 % 4 * 16 + b2 / 16) / 16 = b1 from by omega,
        show (b1 % 4 * 16 + b2 / 16) % 16 * 16 + b2 % 16 * 4 / 4 = b2 from by omega]
    | b1 :: b2 :: b3 :: rest =>
      have h1 : b1 < 256 := hb b1 (by simp)
      have h2 : b2 < 256 := hb b2 (by simp)
      have h3 : b3 < 256 := hb b3 (by simp)
      show base64Decode (base64Char (b1 / 4) :: base64Char (b1 % 4 * 16 + b2 / 16)
        :: base64Char (b2 % 16 * 4 + b3 / 64) :: base64Char (b3 % 64)
        :: base64Chunks rest) = _
      cases rest with
      | nil =>
        unfold base64Decode
        show (if base64Char (b2 % 16 * 4 + b3 / 64) = '=' ∧ base64Char (b3 % 64) = '='
          then _ else _) = _
        rw [if_neg (fun hpair => base64Char_ne_pad (b2 % 16 * 4 + b3 / 64) (by omega) hpair.1)]
        rw [if_neg (base64Char_ne_pad (b3 % 64) (by omega))]
        rw [base64CharDec_base64Char _ (by omega), base64CharDec_base64Char _ (by omega),
          base64CharDec_base64Char _ (by omega), base64CharDec_base64Char _ (by omega)]
        congr 1
        rw [show b1 / 4 * 4 + (b1 % 4 * 16 + b2 / 16) / 16 = b1 from by omega,
          show (b1 % 4 * 16 + b2 / 16) % 16 * 16 + (b2 % 16 * 4 + b3 / 64) / 4 = b2 from by omega,
          show (b2 % 16 * 4 + b3 / 64) % 4 * 64 + b3 % 64 = b3 from by omega]
      | cons r rs =>
        obtain ⟨e1, e2, e3, e4, tl, hshape⟩ := base64Chunks_shape (r :: rs) (by simp)
        have hrec := ih (r :: rs) (by simp at hlen ⊢; omega)
          (fun b hbm => hb b
            (List.mem_cons_of_mem _ (List.mem_cons_of_mem _ (List.mem_cons_of_mem _ hbm))))
        rw [hshape]
        unfold base64Decode
        dsimp only
        rw [← hshape, hrec]
        rw [base64CharDec_base64Char _ (by omega), base64CharDec_base64Char _ (by omega),
          base64CharDec_base64Char _ (by omega), base64CharDec_base64Char _ (by omega)]
        show some _ = _
        congr 2
        rw [show b1 / 4 * 4 + (b1 % 4 * 16 + b2 / 16) / 16 = b1 from by omega,
          show (b1 % 4 * 16 + b2 / 16) % 16 * 16 + (b2 % 16 * 4 + b3 / 64) / 4 = b2 from by omega,
          show (b2 % 16 * 4 + b3 / 64) % 4 * 64 + b3 % 64 = b3 from by omega]

theorem char_toNat_lt (c : Char) : c.toNat < 0x110000 := by
  rcases c.valid with h | h
  · exact Nat.lt_trans h (by norm_num)
  · exact h.2

theorem utf8EncodeChar_lt_256 (c : Nat) (hc : c < 0x110000) :
    ∀ b ∈ utf8EncodeChar c, b < 256 := by
  intro b hb
  unfold utf8EncodeChar at hb
  split at hb
  · simp at hb
    omega
  · split at hb
    · simp at hb
      rcases hb with h | h <;> omega
    · split at hb
      · simp at hb
        rcases hb with h | h | h <;> omega
      · simp at hb
        rcases hb with h | h | h | h <;> omega

theorem utf8DecodeList_encodeChar (c : Nat) (hc : c < 0x110000) (rest : List Nat) :
    utf8DecodeList (utf8EncodeChar c ++ rest) = (utf8DecodeList rest).map (c :: ·) := by
  unfold utf8EncodeChar
  by_cases h1 : c < 0x80
  · rw [if_pos h1]
    show utf8DecodeList (c :: rest) = _
    rw [utf8DecodeList]
    rw [if_pos (show c < 0xC0 from by omega)]
  · rw [if_neg h1]
    by_cases h2 : c < 0x800
    · rw [if_pos h2]
      show utf8DecodeList ((0xC0 + c / 64) :: (0x80 + c % 64) :: rest) = _
      rw [utf8DecodeList]
      rw [if_neg (by omega), if_pos (by omega)]
      rw [utf8DecodeCont2]
      rw [show (0xC0 + c / 64 - 0xC0) * 64 + (0x80 + c % 64 - 0x80) = c from by omega]
    · rw [if_neg h2]
      by_cases h3 : c < 0x10000
      · rw [if_pos h3]
        show utf8DecodeList
          ((0xE0 + c / 4096) :: (0x80 + c / 64 % 64) :: (0x80 + c % 64) :: rest) = _
        rw [utf8DecodeList]
        rw [if_neg (by omega), if_neg (by omega), if_pos (by omega)]
        rw [utf8DecodeCont3]
        rw [show (0xE0 + c / 4096 - 0xE0) * 4096 + (0x80 + c / 64 % 64 - 0x80) * 64
            + (0x80 + c % 64 - 0x80) = c from by omega]
      · rw [if_neg h3]
        show utf8DecodeList ((0xF0 + c / 0x40000) :: (0x80 + c / 4096 % 64)
          :: (0x80 + c / 64 % 64) :: (0x80 + c % 64) :: rest) = _
        rw [utf8DecodeList]
        rw [if_neg (by omega), if_neg (by omega), if_neg (by omega)]
        rw [utf8DecodeCont4]
        rw [show (0xF0 + c / 0x40000 - 0xF0) * 0x40000 + (0x80 + c / 4096 % 64 - 0x80) * 4096
            + (0x80 + c / 64 % 64 - 0x80) * 64 + (0x80 + c % 64 - 0x80) = c from by omega]

theorem utf8DecodeList_utf8Encode (cs : List Char) :
    utf8DecodeList (cs.flatMap (fun ch => utf8EncodeChar ch.toNat))
      = some (cs.map Char.toNat) := by
  induction cs with
  | nil => rfl
  | cons c cs ih =>
    rw [List.flatMap_cons, utf8DecodeList_encodeChar c.toNat (char_toNat_lt c), ih]
    rfl

theorem char_toNat_injective : Function.Injective Char.toNat :=
  StrictMono.injective fun _ _ h => h

theorem utf8Encode_injective : Function.Injective utf8Encode := by
  intro s1 s2 h
  have h1 := utf8DecodeList_utf8Encode s1.data
  have h2 := utf8DecodeList_utf8Encode s2.data
  unfold utf8Encode at h
  rw [h, h2] at h1
  apply String.ext
  exact (List.map_injective_iff.mpr char_toNat_injective (Option.some.inj h1)).symm

theorem utf8Encode_lt_256 (s : String) : ∀ b ∈ utf8Encode s, b < 256 := by
  intro b hbm
  unfold utf8Encode at hbm
  obtain ⟨c, _, hbc⟩ := List.mem_flatMap.mp hbm
  exact utf8EncodeChar_lt_256 c.toNat (char_toNat_lt c) b hbc

theorem bufferBase64_injective : Function.Injective bufferBase64 := by
  intro s1 s2 h
  apply utf8Encode_injective
  have hch : base64Chunks (utf8Encode s1) = base64Chunks (utf8Encode s2) :=
    congrArg String.data h
  have d1 := base64Decode_base64Chunks (utf8Encode s1).length (utf8Encode s1)
    le_rfl (utf8Encode_lt_256 s1)
  have d2 := base64Decode_base64Chunks (utf8Encode s2).length (utf8Encode s2)
    le_rfl (utf8Encode_lt_256 s2)
  rw [hch, d2] at d1
  exact (Option.some.inj d1).symm

theorem append_left_cancel_str {a x y : String} (h : a ++ x = a ++ y) : x = y := by
  apply String.ext
  have hd : a.data ++ x.data = a.data ++ y.data := by
    rw [← String.data_append, ← String.data_append, h]
  exact List.append_cancel_left hd

/-- C9 amended: for a fixed query, filters whose `JSON.stringify`
serialisations differ never collide — the base64 of the UTF-8 bytes of the
serialisation is injective, and it sits in a fixed-prefix position of the
key.  (Filters that are not deep-equal can still collide exactly when
their serialisations coincide, as in the counterexample.) -/
theorem C9_distinct_serialisations_distinct_keys (q : String) (f1 f2 : JsValue)
    (s1 s2 : String) (h1 : stringify f1 = some s1) (h2 : stringify f2 = some s2)
    (hne : s1 ≠ s2) : searchKey q f1 ≠ searchKey q f2 := by
  unfold searchKey
  rw [h1, h2]
  intro h
  apply hne
  have h' : some ("search:" ++ q ++ ":" ++ bufferBase64 s1)
      = some ("search:" ++ q ++ ":" ++ bufferBase64 s2) := h
  exact bufferBase64_injective (append_left_cancel_str (Option.some.inj h'))

/-- Witness for C9 (amended): the filters `null` and `true` have distinct
serialisations and get distinct keys. -/
theorem C9_distinct_serialisations_distinct_keys_witness :
    searchKey "q" JsValue.null ≠ searchKey "q" (JsValue.bool true) :=
  C9_distinct_serialisations_distinct_keys "q" JsValue.null (JsValue.bool true)
    "null" "true" (by simp [stringify]) (by simp [stringify]) (by decide)

end Seller
